import Mathlib

/-!
Shallow embedding of the numerical pipeline in `src/analysis_tools_cython.pyx`
(comet_project).  Machine floating point is modelled by exact rationals: all
flux and time values are `ℚ`, and the square root computed by the library
(`numpy.std`, `(2*m)**0.5`) is abstracted as an explicit function parameter
`sqrtFn : ℚ → ℚ`, since the identities under study are independent of the
numerical value of the square root.  Places where the Python code can raise an
exception are embedded with `Except PyError`; places where IEEE arithmetic
silently produces non-finite values (division by zero) are tracked with
`Option ℚ` (`none` standing for an Inf/NaN result).
-/

/-- Kinds of error signal distinguishable by a Python caller.  The source only
ever raises `indexError` (an uncaught `IndexError` from a list lookup); the
`insufficientData` constructor exists so that statements can express that a
*distinguishable* "insufficient data" signal is (or is not) produced. -/
inductive PyError where
  | indexError : PyError
  | insufficientData : PyError
  | valueError : PyError
deriving DecidableEq

/-- Division as IEEE floating point behaves observably: a zero divisor yields a
non-finite value (`none`), any other divisor yields the exact quotient. -/
def qdiv (a b : ℚ) : Option ℚ := if b = 0 then none else some (a / b)

/-- Mean of an array, `numpy.ndarray.mean` (sum divided by length). -/
def npMean (l : List ℚ) : ℚ := l.sum / l.length

/-- Population variance of an array: the quantity whose square root
`numpy.ndarray.std` returns (`ddof = 0`). -/
def npVariance (l : List ℚ) : ℚ := (l.map (fun x => (x - npMean l) ^ 2)).sum / l.length

/-- Line 44: the list of consecutive time differences of the table. -/
def timeDiffs (table : List (ℚ × ℚ)) : List ℚ :=
  (List.range (table.length - 1)).map
    (fun i => (table.getD (i + 1) (0, 0)).1 - (table.getD i (0, 0)).1)

/-- Line 45: `dt.sort()`.  Python's `list.sort` sorts ascending; on a list of
plain rationals every correct ascending sort produces the same list, so a
structurally recursive insertion sort is used. -/
def sortedDiffs (table : List (ℚ × ℚ)) : List ℚ :=
  List.insertionSort (fun a b => a ≤ b) (timeDiffs table)

/-- Lines 40-46, `calculate_timestep`: sort the consecutive time differences
and return the entry at index `int(len(dt)/2)`.  On a table of length < 2 the
difference list is empty and the lookup `dt[0]` raises an (uncaught)
`IndexError`. -/
def calculate_timestep (table : List (ℚ × ℚ)) : Except PyError ℚ :=
  match (sortedDiffs table)[(sortedDiffs table).length / 2]? with
  | some v => .ok v
  | none => .error .indexError

/-- Python 3 `round` on an exact rational value: nearest integer, ties to
even (banker's rounding), as applied on line 63. -/
def pyRound (q : ℚ) : ℤ :=
  let f := Int.floor q
  let r := q - f
  if r < 1 / 2 then f
  else if 1 / 2 < r then f + 1
  else if f % 2 = 0 then f else f + 1

/-- Lines 68-71 of `clean_data`: the inner `for _ in range(steps-1)` loop.
Each appended point is `timestep + t[-1]` and `fluxstep + x[-1]` with reality
flag 0, where `t[-1]`/`x[-1]` are the previously appended values (threaded
here as `tl`, `xl`). -/
def synthPoints (timestep fluxstep : ℚ) : ℕ → ℚ → ℚ → List (ℚ × ℚ × ℕ)
  | 0, _, _ => []
  | n + 1, tl, xl =>
      (timestep + tl, fluxstep + xl, 0) ::
        synthPoints timestep fluxstep n (timestep + tl) (fluxstep + xl)

/-- Lines 62-75 of `clean_data`: the points appended while processing one row
`(ti, xi)`, given that the previously appended point was `(tl, xl)` (always an
original sample at that moment).  `steps = int(round((ti - t[-1])/timestep))`;
when `steps > 1` the synthetic points are appended first, then the original
row with reality flag 1. -/
def cleanRow (timestep tl xl ti xi : ℚ) : List (ℚ × ℚ × ℕ) :=
  let steps := pyRound ((ti - tl) / timestep)
  (if 1 < steps
    then synthPoints timestep ((xi - xl) / (steps : ℚ)) (steps - 1).toNat tl xl
    else []) ++ [(ti, xi, 1)]

/-- Lines 59-75 of `clean_data`: the loop over all rows after the first, with
`(tl, xl)` the previous original row. -/
def cleanGo (timestep : ℚ) : ℚ → ℚ → List (ℚ × ℚ) → List (ℚ × ℚ × ℕ)
  | _, _, [] => []
  | tl, xl, (ti, xi) :: rest => cleanRow timestep tl xl ti xi ++ cleanGo timestep ti xi rest

/-- Lines 49-77, `clean_data`: interpolate missing data points.  The output
arrays `t`, `x`, `r` are represented as one list of `(time, flux, real)`
triples.  The `IndexError` raised by `calculate_timestep` on short input
propagates (it is not caught anywhere in the source). -/
def clean_data (table : List (ℚ × ℚ)) : Except PyError (List (ℚ × ℚ × ℕ)) :=
  match calculate_timestep table with
  | .error e => .error e
  | .ok timestep =>
      .ok (match table with
           | [] => []
           | (t0, x0) :: rest => (t0, x0, 1) :: cleanGo timestep t0 x0 rest)

section CalculateTimestepFacts

theorem timeDiffs_length (table : List (ℚ × ℚ)) :
    (timeDiffs table).length = table.length - 1 := by
  simp [timeDiffs]

theorem sortedDiffs_length (table : List (ℚ × ℚ)) :
    (sortedDiffs table).length = table.length - 1 := by
  simp [sortedDiffs, timeDiffs]

theorem sortedDiffs_sorted (table : List (ℚ × ℚ)) :
    (sortedDiffs table).Sorted (fun a b => a ≤ b) :=
  List.sorted_insertionSort _ _

end CalculateTimestepFacts

/-- Claim C4 counterexample: for the table with times `0, 1, 3, 6, 10` the
sorted difference list is `[1, 2, 3, 4]` (even length `M = 4`);
`calculate_timestep` returns the entry `3` at the upper-middle index
`int(4/2) = 2`, not the entry `2` at the lower-middle index `⌊(M-1)/2⌋ = 1`
that the claim names. -/
theorem calculate_timestep_not_lower_median :
    calculate_timestep [(0, 0), (1, 0), (3, 0), (6, 0), (10, 0)] = .ok 3 ∧
      (sortedDiffs [(0, 0), (1, 0), (3, 0), (6, 0), (10, 0)]).getD ((4 - 1) / 2) 0 = 2 ∧
      (3 : ℚ) ≠ 2 := by
  refine ⟨?_, ?_, by norm_num⟩ <;>
    norm_num [calculate_timestep, sortedDiffs, timeDiffs, List.insertionSort,
      List.orderedInsert, List.range, List.range.loop]

/-- Claim C4 (amended): `calculate_timestep` returns the entry of the sorted
difference list at index `⌊M/2⌋` where `M = length - 1` is the number of
differences — the upper-middle entry for even `M` (which is at least the
lower-middle entry the claim names), and the true middle entry for odd `M`. -/
theorem calculate_timestep_upper_median (table : List (ℚ × ℚ))
    (h : 2 ≤ table.length) :
    calculate_timestep table = .ok ((sortedDiffs table).getD ((table.length - 1) / 2) 0) ∧
      (sortedDiffs table).getD ((table.length - 1 - 1) / 2) 0 ≤
        (sortedDiffs table).getD ((table.length - 1) / 2) 0 := by
  have hM : 1 ≤ table.length - 1 := by omega
  have hlen : (sortedDiffs table).length = table.length - 1 := sortedDiffs_length table
  have hidx : (table.length - 1) / 2 < (sortedDiffs table).length := by omega
  have hidx' : (table.length - 1 - 1) / 2 < (sortedDiffs table).length := by omega
  constructor
  · unfold calculate_timestep
    have : (sortedDiffs table)[(sortedDiffs table).length / 2]? =
        some ((sortedDiffs table).getD ((table.length - 1) / 2) 0) := by
      rw [hlen]
      rw [List.getElem?_eq_getElem hidx]
      rw [List.getD_eq_getElem _ _ hidx]
    simp only [this]
  · have hle : (table.length - 1 - 1) / 2 ≤ (table.length - 1) / 2 := by omega
    have h2 := @List.Sorted.rel_get_of_le ℚ (fun a b => a ≤ b) inferInstance
      (sortedDiffs table) (sortedDiffs_sorted table)
      ⟨(table.length - 1 - 1) / 2, hidx'⟩ ⟨(table.length - 1) / 2, hidx⟩ hle
    rw [List.getD_eq_getElem _ _ hidx', List.getD_eq_getElem _ _ hidx]
    simpa [List.get_eq_getElem] using h2

/-- Witness for `calculate_timestep_upper_median` at the five-point table used
in the counterexample. -/
theorem calculate_timestep_upper_median_witness :
    calculate_timestep [(0, 0), (1, 0), (3, 0), (6, 0), (10, 0)] =
      .ok ((sortedDiffs [(0, 0), (1, 0), (3, 0), (6, 0), (10, 0)]).getD 2 0) := by
  have h := calculate_timestep_upper_median
    [(0, 0), (1, 0), (3, 0), (6, 0), (10, 0)] (by norm_num)
  simpa using h.1

/-- Claim C7 counterexample: on the empty table (and on a one-row table) both
`calculate_timestep` and `clean_data` end in an uncaught generic `IndexError`
from the lookup `dt[0]` on the empty difference list — a crash, not the
distinguishable "insufficient data" signal the claim describes. -/
theorem clean_data_short_input_counterexample :
    calculate_timestep ([] : List (ℚ × ℚ)) = .error .indexError ∧
      clean_data ([] : List (ℚ × ℚ)) = .error .indexError ∧
      clean_data [((0 : ℚ), (1 : ℚ))] = .error .indexError ∧
      PyError.indexError ≠ PyError.insufficientData := by
  refine ⟨?_, ?_, ?_, by simp⟩ <;>
    simp [clean_data, calculate_timestep, sortedDiffs, timeDiffs, List.insertionSort]

/-- Claim C7 (amended): for every input series of length less than 2 the code
raises a generic `IndexError` (indexing the empty sorted-difference list at
position 0); `clean_data` propagates it uncaught and produces no output, and
no distinguishable "insufficient data" error kind is signaled. -/
theorem clean_data_short_input (table : List (ℚ × ℚ)) (h : table.length < 2) :
    calculate_timestep table = .error .indexError ∧
      clean_data table = .error .indexError := by
  have hd : (sortedDiffs table).length = 0 := by
    rw [sortedDiffs_length]; omega
  have hnil : sortedDiffs table = [] := List.eq_nil_of_length_eq_zero hd
  have hct : calculate_timestep table = .error .indexError := by
    unfold calculate_timestep
    rw [hnil]
    rfl
  exact ⟨hct, by simp [clean_data, hct]⟩

/-- Witness for `clean_data_short_input` at a concrete one-row table. -/
theorem clean_data_short_input_witness :
    calculate_timestep [((3 : ℚ), (7 : ℚ))] = .error .indexError ∧
      clean_data [((3 : ℚ), (7 : ℚ))] = .error .indexError :=
  clean_data_short_input [((3 : ℚ), (7 : ℚ))] (by simp)

/-- Lines 80-84, `normalise_flux`: `flux/flux.mean() - ones`. -/
def normalise_flux (flux : List ℚ) : List ℚ :=
  flux.map (fun x => x / npMean flux - 1)

/-- Lines 80-84 with IEEE division observed: when the mean is zero the numpy
elementwise division produces non-finite entries (`none`) and emits only a
runtime warning; no exception is raised and the array is still returned. -/
def normalise_fluxF (flux : List ℚ) : List (Option ℚ) :=
  flux.map (fun x => (qdiv x (npMean flux)).map (fun y => y - 1))

/-- Line 143 with IEEE division observed: the normalisation factor
`1 / ((2*m)**0.5 * sigma)` of `test_statistic_array`, where
`sigma = flux.std() = sqrtFn (npVariance flux)`.  When the flux is constant,
`sigma = 0` and the C float division yields a non-finite value (`none`)
without raising anything. -/
def norm_factorF (sqrtFn : ℚ → ℚ) (m : ℕ) (flux : List ℚ) : Option ℚ :=
  qdiv 1 (sqrtFn (2 * m) * sqrtFn (npVariance flux))

/-- Claim C6 counterexample: the zero-mean flux `[1, -1]` is mapped by
`normalise_flux` to an array of non-finite values with no error signaled, and
for the constant flux `[5, 5, 5, 5]` (variance 0) the normalisation factor of
`test_statistic_array` is computed by dividing by zero, again with no error
signaled.  The square-root stand-in `fun q => q` agrees with the true square
root at the only argument that matters here (`0`). -/
theorem degenerate_numeric_counterexample :
    npMean [1, -1] = 0 ∧
      normalise_fluxF [1, -1] = [none, none] ∧
      npVariance [5, 5, 5, 5] = 0 ∧
      norm_factorF (fun q => q) 1 [5, 5, 5, 5] = none := by
  refine ⟨by norm_num [npMean], ?_, by norm_num [npVariance, npMean], ?_⟩ <;>
    norm_num [normalise_fluxF, norm_factorF, qdiv, npMean, npVariance]

/-- Claim C6 (amended): neither operation signals an explicit
degenerate-numeric error.  `normalise_flux` on a zero-mean flux divides every
entry by zero, silently producing an all-non-finite output array, and
`test_statistic_array` on a zero-variance flux computes every normalisation
factor as a division by zero, silently producing non-finite statistic values;
in both cases an ordinary value (not an error) is returned. -/
theorem degenerate_numeric_behaviour :
    (∀ flux : List ℚ, npMean flux = 0 →
      normalise_fluxF flux = flux.map (fun _ => none)) ∧
      (∀ (sqrtFn : ℚ → ℚ) (flux : List ℚ) (m : ℕ), sqrtFn 0 = 0 →
        npVariance flux = 0 → norm_factorF sqrtFn m flux = none) := by
  constructor
  · intro flux h
    simp [normalise_fluxF, qdiv, h]
  · intro sqrtFn flux m h0 hv
    simp [norm_factorF, hv, h0, qdiv]

/-- Witness for `degenerate_numeric_behaviour` at concrete inputs. -/
theorem degenerate_numeric_behaviour_witness :
    normalise_fluxF [2, -2] = [none, none] ∧
      norm_factorF (fun q => q) 2 [3, 3] = none := by
  constructor
  · have h := degenerate_numeric_behaviour.1 [2, -2] (by norm_num [npMean])
    simpa using h
  · exact degenerate_numeric_behaviour.2 (fun q => q) [3, 3] 2 rfl
      (by norm_num [npVariance, npMean])

/-- Lines 210-220, `interpret`: relabel so that component 1 is the
larger-amplitude peak, then report `height_ratio = A2/A1` and
`separation = (mu2 - mu1)/sigma1`. -/
def interpret (params : ℚ × ℚ × ℚ × ℚ × ℚ × ℚ) : ℚ × ℚ :=
  match params with
  | (p0, p1, p2, p3, p4, p5) =>
      if p0 > p3 then (p3 / p0, (p4 - p1) / p2)
      else (p0 / p3, (p1 - p4) / p5)

/-- Claim C10: whenever both fitted amplitudes are nonnegative and at least
one is positive, the height ratio reported by `interpret` lies in `[0, 1]`:
the relabeling puts the larger amplitude in the denominator. -/
theorem interpret_height_ratio_unit (p0 p1 p2 p3 p4 p5 : ℚ)
    (h0 : 0 ≤ p0) (h3 : 0 ≤ p3) (hpos : 0 < p0 ∨ 0 < p3) :
    0 ≤ (interpret (p0, p1, p2, p3, p4, p5)).1 ∧
      (interpret (p0, p1, p2, p3, p4, p5)).1 ≤ 1 := by
  unfold interpret
  by_cases h : p0 > p3
  · have hp0 : 0 < p0 := lt_of_le_of_lt h3 h
    simp only [if_pos h]
    exact ⟨div_nonneg h3 (le_of_lt hp0), (div_le_one hp0).mpr (le_of_lt h)⟩
  · have hle : p0 ≤ p3 := not_lt.mp h
    have hp3 : 0 < p3 := by
      rcases hpos with hp | hp
      · exact lt_of_lt_of_le hp hle
      · exact hp
    simp only [if_neg h]
    exact ⟨div_nonneg h0 (le_of_lt hp3), (div_le_one hp3).mpr hle⟩

/-- Witness for `interpret_height_ratio_unit` at the parameter tuple
`(2, 0, 1, 1, 5, 1)`. -/
theorem interpret_height_ratio_unit_witness :
    0 ≤ (interpret (2, 0, 1, 1, 5, 1)).1 ∧ (interpret (2, 0, 1, 1, 5, 1)).1 ≤ 1 :=
  interpret_height_ratio_unit 2 0 1 1 5 1 (by norm_num) (by norm_num)
    (Or.inl (by norm_num))

section CleanDataFacts

/-- Closed form of the incremental synthetic-point loop: the k-th appended
point (k = 1, ..., n) sits at time `tl + k·timestep` and flux
`xl + k·fluxstep`, with reality flag 0. -/
theorem synthPoints_eq (timestep fluxstep : ℚ) :
    ∀ (n : ℕ) (tl xl : ℚ),
      synthPoints timestep fluxstep n tl xl =
        (List.range' 1 n).map
          (fun (k : ℕ) => (tl + (k : ℚ) * timestep, xl + (k : ℚ) * fluxstep, (0 : ℕ))) := by
  intro n
  induction n with
  | zero => intro tl xl; rfl
  | succ n ih =>
      intro tl xl
      rw [synthPoints, ih, List.range'_succ]
      simp only [List.map_cons]
      congr 1
      · push_cast
        exact Prod.ext (by ring) (Prod.ext (by ring) rfl)
      · have h2 : List.range' (1 + 1) n 1 =
            (List.range' 1 n 1).map (fun x => 1 + x) := (List.map_add_range' 1 1 n 1).symm
        rw [h2, List.map_map]
        refine List.map_congr_left ?_
        intro a _
        simp only [Function.comp_apply]
        push_cast
        refine Prod.ext (by ring) (Prod.ext (by ring) rfl)

/-- Unfolding of one `clean_data` row when the rounded step count exceeds 1:
the appended block is the closed-form list of `steps - 1` interpolated points
followed by the original row flagged real. -/
theorem cleanRow_eq_of_gap (timestep tl xl ti xi : ℚ)
    (hsteps : 1 < pyRound ((ti - tl) / timestep)) :
    cleanRow timestep tl xl ti xi =
      ((List.range' 1 (pyRound ((ti - tl) / timestep) - 1).toNat).map
        (fun (k : ℕ) => (tl + (k : ℚ) * timestep,
          xl + (k : ℚ) * ((xi - xl) / ((pyRound ((ti - tl) / timestep) : ℤ) : ℚ)),
          (0 : ℕ)))) ++ [(ti, xi, 1)] := by
  simp only [cleanRow]
  rw [if_pos hsteps, synthPoints_eq]

end CleanDataFacts

/-- Claim C3: (1) `clean_data` emits the first row as real and then processes
consecutive rows in order; (2) between a previous original sample `(tl, xl)`
and the next `(ti, xi)`, whenever `steps = round((ti - tl)/Δ) > 1` the code
inserts exactly `steps - 1` synthetic points, the k-th at time `tl + k·Δ` and
flux `xl + k·(xi - xl)/steps`, flagged 0, followed by the original `(ti, xi)`
flagged 1; (3) in particular a gap of exactly `3·Δ` receives exactly 2
synthetic points, linearly interpolated, `Δ` apart. -/
theorem clean_data_interpolation :
    (∀ (t0 x0 : ℚ) (rest : List (ℚ × ℚ)) (timestep : ℚ),
      calculate_timestep ((t0, x0) :: rest) = .ok timestep →
        clean_data ((t0, x0) :: rest) = .ok ((t0, x0, 1) :: cleanGo timestep t0 x0 rest)) ∧
      (∀ (timestep tl xl ti xi : ℚ) (rest : List (ℚ × ℚ)),
        1 < pyRound ((ti - tl) / timestep) →
          cleanGo timestep tl xl ((ti, xi) :: rest) =
            ((List.range' 1 (pyRound ((ti - tl) / timestep) - 1).toNat).map
              (fun (k : ℕ) => (tl + (k : ℚ) * timestep,
                xl + (k : ℚ) * ((xi - xl) / ((pyRound ((ti - tl) / timestep) : ℤ) : ℚ)),
                (0 : ℕ)))) ++
              (ti, xi, 1) :: cleanGo timestep ti xi rest) ∧
      (∀ (timestep tl xl xi : ℚ) (rest : List (ℚ × ℚ)), timestep ≠ 0 →
        cleanGo timestep tl xl ((tl + 3 * timestep, xi) :: rest) =
          [(tl + timestep, xl + (xi - xl) / 3, 0),
            (tl + 2 * timestep, xl + 2 * ((xi - xl) / 3), 0)] ++
            (tl + 3 * timestep, xi, 1) :: cleanGo timestep (tl + 3 * timestep) xi rest) := by
  refine ⟨?_, ?_, ?_⟩
  · intro t0 x0 rest timestep hct
    simp [clean_data, hct]
  · intro timestep tl xl ti xi rest hsteps
    show cleanRow timestep tl xl ti xi ++ cleanGo timestep ti xi rest = _
    rw [cleanRow_eq_of_gap timestep tl xl ti xi hsteps]
    simp
  · intro timestep tl xl xi rest ht
    have hq : (tl + 3 * timestep - tl) / timestep = 3 := by
      field_simp
    have hsteps : pyRound ((tl + 3 * timestep - tl) / timestep) = 3 := by
      rw [hq]
      norm_num [pyRound]
    show cleanRow timestep tl xl (tl + 3 * timestep) xi ++
        cleanGo timestep (tl + 3 * timestep) xi rest = _
    rw [cleanRow_eq_of_gap timestep tl xl (tl + 3 * timestep) xi (by rw [hsteps]; norm_num)]
    rw [hsteps]
    have hr : List.range' 1 ((3 : ℤ) - 1).toNat = [1, 2] := rfl
    rw [hr]
    simp only [List.map_cons, List.map_nil, List.cons_append, List.nil_append,
      List.singleton_append]
    push_cast
    congr 1
    · exact Prod.ext (by ring) (Prod.ext (by ring) rfl)

/-- Witness for `clean_data_interpolation`: on the table with times
`0, 1, 2, 5` (timestep 1, one gap of exactly three timesteps) the pipeline
inserts exactly two synthetic points at times 3 and 4, linearly interpolated
between flux 2 and 8, and keeps all original rows flagged real. -/
theorem clean_data_interpolation_witness :
    clean_data [(0, 0), (1, 1), (2, 2), (5, 8)] =
      .ok [(0, 0, 1), (1, 1, 1), (2, 2, 1), (3, 4, 0), (4, 6, 0), (5, 8, 1)] := by
  have h1 := clean_data_interpolation.1 0 0 [(1, 1), (2, 2), (5, 8)] 1
    (by norm_num [calculate_timestep, sortedDiffs, timeDiffs, List.insertionSort,
      List.orderedInsert])
  have h3 := clean_data_interpolation.2.2 1 2 2 8 ([] : List (ℚ × ℚ)) (by norm_num)
  norm_num [cleanGo] at h3
  have e1 : cleanRow (1 : ℚ) 0 0 1 1 = [(1, 1, 1)] := by
    norm_num [cleanRow, pyRound]
  have e2 : cleanRow (1 : ℚ) 1 1 2 2 = [(2, 2, 1)] := by
    norm_num [cleanRow, pyRound]
  rw [h1]
  simp [cleanGo, e1, e2, h3]

/-- Single in-place write `A[r][c] = v` of a numpy 2-d array, the array being
modelled as a total function on index pairs (entries outside the allocated
`n × N` block are never read by the claims under study). -/
def mset (A : ℕ → ℕ → ℚ) (r c : ℕ) (v : ℚ) : ℕ → ℕ → ℚ :=
  fun i j => if i = r ∧ j = c then v else A i j

/-- Lines 148-152 of `test_statistic_array`: the inner loop over centre
indices `i`, threading the running window sum `mu`; each step performs
`mu += flux[i+m-1] - flux[i-m-1]` and writes `t_test[m][i] = mu * norm_factor`. -/
def tInner (flux : List ℚ) (nf : ℚ) (m : ℕ) :
    List ℕ → ℚ → (ℕ → ℕ → ℚ) → (ℕ → ℕ → ℚ)
  | [], _, A => A
  | i :: is, mu, A =>
      let mu' := mu + (flux.getD (i + m - 1) 0 - flux.getD (i - m - 1) 0)
      tInner flux nf m is mu' (mset A m i (mu' * nf))

/-- Lines 141-152 of `test_statistic_array`: the outer loop over half-widths
`m = 1, ..., n-1`.  For each `m` it computes
`norm_factor = 1/((2*m)**0.5 * sigma)`, seeds `mu = flux[0:2m].sum()`, writes
the seed cell `t_test[m][m]`, and runs the inner loop over
`i in range(m+1, N-m)`. -/
def tOuter (sqrtFn : ℚ → ℚ) (flux : List ℚ) (sigma : ℚ) (N : ℕ) :
    List ℕ → (ℕ → ℕ → ℚ) → (ℕ → ℕ → ℚ)
  | [], A => A
  | m :: ms, A =>
      tOuter sqrtFn flux sigma N ms
        (tInner flux (1 / (sqrtFn (2 * m) * sigma)) m
          (List.range' (m + 1) (N - m - (m + 1)))
          ((flux.take (2 * m)).sum)
          (mset A m m ((flux.take (2 * m)).sum * (1 / (sqrtFn (2 * m) * sigma)))))

/-- Lines 131-154, `test_statistic_array`: `sigma = flux.std()` is computed
once (embedded as `sqrtFn` applied to the population variance) and shared by
all half-widths; the matrix starts as `np.zeros([n, N])`. -/
def test_statistic_array (sqrtFn : ℚ → ℚ) (flux : List ℚ) (max_half_width : ℕ) :
    ℕ → ℕ → ℚ :=
  tOuter sqrtFn flux (sqrtFn (npVariance flux)) flux.length
    (List.range' 1 (max_half_width - 1)) (fun _ _ => 0)

/-- Direct (from scratch) window sum `flux[i-m : i+m].sum()` of the commented
out line 150, the quantity the running sum is claimed to equal. -/
def windowSum (flux : List ℚ) (m i : ℕ) : ℚ :=
  ((flux.drop (i - m)).take (2 * m)).sum

section TestStatisticFacts

theorem tInner_cons (flux : List ℚ) (nf : ℚ) (m i : ℕ) (is : List ℕ) (mu : ℚ)
    (A : ℕ → ℕ → ℚ) :
    tInner flux nf m (i :: is) mu A =
      tInner flux nf m is (mu + (flux.getD (i + m - 1) 0 - flux.getD (i - m - 1) 0))
        (mset A m i ((mu + (flux.getD (i + m - 1) 0 - flux.getD (i - m - 1) 0)) * nf)) :=
  rfl

/-- Sliding a length-`L` window one step to the right adds the entering
element and removes the leaving one. -/
theorem window_shift (l : List ℚ) (d L : ℕ) (h : d + L < l.length) :
    ((l.drop (d + 1)).take L).sum =
      ((l.drop d).take L).sum + l.getD (d + L) 0 - l.getD d 0 := by
  have hd : d < l.length := by omega
  have hdl : L < (l.drop d).length := by
    rw [List.length_drop]; omega
  have h1 : ((l.drop d).take (L + 1)).sum = ((l.drop d).take L).sum + (l.drop d)[L] :=
    List.sum_take_succ _ _ hdl
  have h2 : l.drop d = l[d] :: l.drop (d + 1) := List.drop_eq_getElem_cons hd
  have h3 : ((l.drop d).take (L + 1)).sum = l[d] + ((l.drop (d + 1)).take L).sum := by
    rw [h2, List.take_succ_cons, List.sum_cons]
  have h4 : (l.drop d)[L] = l[d + L] := List.getElem_drop l
  rw [List.getD_eq_getElem l 0 (by omega : d + L < l.length),
    List.getD_eq_getElem l 0 hd]
  rw [h3, h4] at h1
  linarith

/-- One incremental update of the running sum moves the direct window sum from
centre `j` to centre `j + 1` (this is the `mu += flux[i+m-1] - flux[i-m-1]`
update at `i = j + 1`). -/
theorem windowSum_succ (flux : List ℚ) (m j : ℕ) (hm : m ≤ j)
    (hj : j + m < flux.length) :
    windowSum flux m (j + 1) =
      windowSum flux m j + (flux.getD (j + m) 0 - flux.getD (j - m) 0) := by
  unfold windowSum
  have hd : j + 1 - m = (j - m) + 1 := by omega
  have hL : (j - m) + 2 * m = j + m := by omega
  rw [hd]
  have := window_shift flux (j - m) (2 * m) (by omega)
  rw [hL] at this
  linarith

end TestStatisticFacts

section TestStatisticLoops

/-- Characterisation of the inner loop of `test_statistic_array`: starting
from a running sum equal to the direct window sum at centre `s - 1`, the loop
over `i in range(s, s + count)` writes `windowSum · norm_factor` at every
visited cell of row `m` and touches nothing else. -/
theorem tInner_apply (flux : List ℚ) (nf : ℚ) (m : ℕ) :
    ∀ (count s : ℕ) (mu : ℚ) (A : ℕ → ℕ → ℚ),
      m + 1 ≤ s →
      mu = windowSum flux m (s - 1) →
      s + count + m ≤ flux.length + 1 →
      ∀ r c,
        tInner flux nf m (List.range' s count) mu A r c =
          if r = m ∧ s ≤ c ∧ c < s + count then windowSum flux m c * nf
          else A r c := by
  intro count
  induction count with
  | zero =>
      intro s mu A hs hmu hbound r c
      rw [if_neg (by omega)]
      rfl
  | succ count ih =>
      intro s mu A hs hmu hbound r c
      rw [List.range'_succ, tInner_cons]
      have hmu' : mu + (flux.getD (s + m - 1) 0 - flux.getD (s - m - 1) 0) =
          windowSum flux m s := by
        have hj : m ≤ s - 1 := by omega
        have hj2 : s - 1 + m < flux.length := by omega
        have h := windowSum_succ flux m (s - 1) hj hj2
        have hs1 : s - 1 + 1 = s := by omega
        have e1 : s - 1 + m = s + m - 1 := by omega
        have e2 : s - 1 - m = s - m - 1 := by omega
        rw [hs1, e1, e2] at h
        rw [hmu, h]
      rw [hmu']
      rw [ih (s + 1) (windowSum flux m s) _ (by omega)
        (by rw [Nat.add_sub_cancel]) (by omega) r c]
      by_cases h1 : r = m ∧ s + 1 ≤ c ∧ c < s + 1 + count
      · rw [if_pos h1, if_pos ⟨h1.1, by omega, by omega⟩]
      · rw [if_neg h1]
        unfold mset
        by_cases h2 : r = m ∧ c = s
        · rw [if_pos h2, if_pos ⟨h2.1, by omega, by omega⟩, h2.2]
        · rw [if_neg h2, if_neg (by omega)]

/-- Characterisation of the outer loop of `test_statistic_array`: after
processing half-widths `a, ..., a + len - 1`, row `r` of the matrix holds
`windowSum flux r c * (1/(sqrt(2r)·σ))` at the seed cell `c = r` and at every
inner-loop cell `r + 1 ≤ c < N - r`, and every other entry is untouched. -/
theorem tOuter_apply (sqrtFn : ℚ → ℚ) (flux : List ℚ) (sigma : ℚ) :
    ∀ (len a : ℕ) (A : ℕ → ℕ → ℚ), 1 ≤ a →
      ∀ r c,
        tOuter sqrtFn flux sigma flux.length (List.range' a len) A r c =
          if a ≤ r ∧ r < a + len ∧
              (c = r ∨ (r + 1 ≤ c ∧ c < flux.length - r)) then
            windowSum flux r c * (1 / (sqrtFn (2 * r) * sigma))
          else A r c := by
  intro len
  induction len with
  | zero =>
      intro a A ha r c
      rw [if_neg (by omega)]
      rfl
  | succ len ih =>
      intro a A ha r c
      rw [List.range'_succ]
      simp only [tOuter]
      rw [ih (a + 1) _ (by omega) r c]
      have hseed : (flux.take (2 * a)).sum = windowSum flux a a := by
        unfold windowSum
        rw [Nat.sub_self, List.drop_zero]
      by_cases hih : a + 1 ≤ r ∧ r < a + 1 + len ∧
          (c = r ∨ (r + 1 ≤ c ∧ c < flux.length - r))
      · rw [if_pos hih, if_pos ⟨by omega, by omega, hih.2.2⟩]
      · rw [if_neg hih]
        by_cases hN : 2 * a + 1 ≤ flux.length
        · rw [tInner_apply flux _ a (flux.length - a - (a + 1)) (a + 1) _ _
            (by omega) (by rw [hseed, Nat.add_sub_cancel]) (by omega) r c]
          by_cases h2 : r = a ∧ a + 1 ≤ c ∧ c < a + 1 + (flux.length - a - (a + 1))
          · rw [if_pos h2, if_pos ⟨by omega, by omega, Or.inr ⟨by omega, by omega⟩⟩, h2.1]
          · rw [if_neg h2]
            unfold mset
            by_cases h3 : r = a ∧ c = a
            · rw [if_pos h3, if_pos ⟨by omega, by omega, Or.inl (by omega)⟩,
                hseed, h3.1, h3.2]
            · rw [if_neg h3, if_neg (by omega)]
        · have hcount : flux.length - a - (a + 1) = 0 := by omega
          rw [hcount]
          show mset A a a ((flux.take (2 * a)).sum * (1 / (sqrtFn (2 * a) * sigma))) r c = _
          unfold mset
          by_cases h3 : r = a ∧ c = a
          · rw [if_pos h3, if_pos ⟨by omega, by omega, Or.inl (by omega)⟩,
              hseed, h3.1, h3.2]
          · rw [if_neg h3, if_neg (by omega)]

end TestStatisticLoops

/-- Claim C1: for every flux array with nonzero standard deviation, every
half-width `m` in `[1, max_half_width)` and every centre `i` in `[m, N-m)`,
the seeded-then-incremental running sum produces exactly
`(flux[i-m] + ... + flux[i+m-1]) * (1/(sqrt(2m)·σ))`, with
`σ = sqrtFn (npVariance flux)` computed once and shared across all `m`. -/
theorem test_statistic_running_sum (sqrtFn : ℚ → ℚ) (flux : List ℚ)
    (n m i : ℕ) (hsig : sqrtFn (npVariance flux) ≠ 0)
    (hm : 1 ≤ m) (hmn : m < n) (hmi : m ≤ i) (hiN : i + m < flux.length) :
    test_statistic_array sqrtFn flux n m i =
      windowSum flux m i * (1 / (sqrtFn (2 * m) * sqrtFn (npVariance flux))) := by
  unfold test_statistic_array
  rw [tOuter_apply sqrtFn flux (sqrtFn (npVariance flux)) (n - 1) 1 _ (by omega) m i]
  rw [if_pos ⟨by omega, by omega, by omega⟩]

/-- Witness for `test_statistic_running_sum`: for flux `[1, 2, 4, 8]` (with
`npVariance = 115/16`, square root abstracted as the identity function) the
statistic at half-width 1, centre 1 evaluates to
`(1 + 2) · 1/(2 · 115/16) = 24/115`. -/
theorem test_statistic_running_sum_witness :
    test_statistic_array (fun q => q) [1, 2, 4, 8] 2 1 1 = 24 / 115 := by
  have h := test_statistic_running_sum (fun q => q) [1, 2, 4, 8] 2 1 1
    (by norm_num [npVariance, npMean]) (by norm_num) (by norm_num) (by norm_num)
    (by norm_num)
  rw [h]
  norm_num [windowSum, npVariance, npMean]

/-- Claim C5 counterexample: for flux `[1, 1, 3, 3]` (length `N = 4`) and
`max_half_width = 3`, the centre index `i = 2` lies outside the region
`[m, N-m) = [2, 2)` for half-width `m = 2`, yet the seed write
`t_test[m][m] = flux[0:2m].sum() * norm_factor` unconditionally fills that
cell with the nonzero value 4.  (The square-root stand-in agrees with the
true square root at both arguments used: `sqrt 4 = 2`, `sqrt 1 = 1` where
`npVariance [1,1,3,3] = 1`.) -/
theorem test_statistic_seed_outside_region :
    ¬ ((2 : ℕ) < ([1, 1, 3, 3] : List ℚ).length - 2) ∧
      test_statistic_array (fun q => if q = 4 then 2 else 1) [1, 1, 3, 3] 3 2 2 = 4 ∧
      (4 : ℚ) ≠ 0 := by
  refine ⟨by norm_num, ?_, by norm_num⟩
  unfold test_statistic_array
  rw [tOuter_apply (fun q => if q = 4 then 2 else 1) [1, 1, 3, 3]
    ((fun q => if q = 4 then 2 else 1) (npVariance [1, 1, 3, 3])) (3 - 1) 1 _
    (by norm_num) 2 2]
  norm_num [windowSum, npVariance, npMean]

/-- Lines 176-178, `nonzero`: the 1-d array of the nonzero elements of the
matrix `T`, taken in the row-major order of `T.flat` over the allocated
`rows × cols` block. -/
def nonzero (T : ℕ → ℕ → ℚ) (rows cols : ℕ) : List ℚ :=
  (((List.range rows).map (fun r => (List.range cols).map (fun c => T r c))).flatten).filter
    (fun x => x != 0)

/-- Line 185 of `double_gaussian_curve_fit`: `data = nonzero(T)` — the sample
set that the two-Gaussian distribution fit operates on is exactly the array
of the nonzero statistic entries (the rest of that function only histograms
`data` and fits the external `curve_fit` to the histogram). -/
def double_gaussian_fit_data (T : ℕ → ℕ → ℚ) (rows cols : ℕ) : List ℚ :=
  nonzero T rows cols

theorem mem_nonzero (T : ℕ → ℕ → ℚ) (rows cols : ℕ) (x : ℚ) :
    x ∈ nonzero T rows cols ↔
      x ≠ 0 ∧ ∃ r, r < rows ∧ ∃ c, c < cols ∧ T r c = x := by
  unfold nonzero
  simp [List.mem_filter, List.mem_flatten, List.mem_map, List.mem_range, bne_iff_ne]
  tauto

/-- Claim C5 (amended): (a) the matrix returned by `test_statistic_array` is
zero at every entry `[m][i]` outside the *written* set, which consists of the
claimed region `m ∈ [1, max_half_width)`, `i ∈ (m, N-m)` together with the
seed cell `i = m`, written unconditionally for every `m ∈ [1, max_half_width)`
— including half-widths with `2m ≥ N`, for which `i = m` falls outside the
claimed region `[m, N-m)`; and (b) the distribution fit operates only on the
nonzero entries: every element of the sample set `data = nonzero(T)`
extracted by `double_gaussian_curve_fit` is nonzero and is an entry of the
written set. -/
theorem test_statistic_zero_outside_written (sqrtFn : ℚ → ℚ) (flux : List ℚ)
    (n : ℕ) :
    (∀ m i, ¬ (1 ≤ m ∧ m < n ∧ (i = m ∨ (m + 1 ≤ i ∧ i < flux.length - m))) →
      test_statistic_array sqrtFn flux n m i = 0) ∧
      (∀ x ∈ double_gaussian_fit_data (test_statistic_array sqrtFn flux n) n
          flux.length,
        x ≠ 0 ∧ ∃ m i,
          (1 ≤ m ∧ m < n ∧ (i = m ∨ (m + 1 ≤ i ∧ i < flux.length - m))) ∧
            test_statistic_array sqrtFn flux n m i = x) := by
  have hzero : ∀ m i,
      ¬ (1 ≤ m ∧ m < n ∧ (i = m ∨ (m + 1 ≤ i ∧ i < flux.length - m))) →
        test_statistic_array sqrtFn flux n m i = 0 := by
    intro m i h
    unfold test_statistic_array
    rw [tOuter_apply sqrtFn flux (sqrtFn (npVariance flux)) (n - 1) 1 _ (by omega) m i]
    rw [if_neg (by omega)]
  refine ⟨hzero, ?_⟩
  intro x hx
  rw [double_gaussian_fit_data, mem_nonzero] at hx
  obtain ⟨hne, r, hr, c, hc, hrc⟩ := hx
  refine ⟨hne, r, c, ?_, hrc⟩
  by_contra hcond
  rw [hzero r c hcond] at hrc
  exact hne hrc.symm

/-- Witness for `test_statistic_zero_outside_written`: part (a) at the never
written cell (0, 5) of the matrix for flux `[1, 2, 4, 8]`, and part (b) at
the concrete sample value `24/115 = t_test[1][1]`, a member of
`nonzero(t_test)` that indeed comes from the written set. -/
theorem test_statistic_zero_outside_written_witness :
    test_statistic_array (fun q => q) [1, 2, 4, 8] 2 0 5 = 0 ∧
      ((24 : ℚ) / 115 ≠ 0 ∧ ∃ m i,
        (1 ≤ m ∧ m < 2 ∧ (i = m ∨ (m + 1 ≤ i ∧ i < ([1, 2, 4, 8] : List ℚ).length - m))) ∧
          test_statistic_array (fun q => q) [1, 2, 4, 8] 2 m i = 24 / 115) := by
  have hT : test_statistic_array (fun q => q) [1, 2, 4, 8] 2 1 1 = 24 / 115 := by
    unfold test_statistic_array
    rw [tOuter_apply (fun q => q) [1, 2, 4, 8] ((fun q => q) (npVariance [1, 2, 4, 8]))
      (2 - 1) 1 _ (by norm_num) 1 1]
    norm_num [windowSum, npVariance, npMean]
  constructor
  · exact (test_statistic_zero_outside_written (fun q => q) [1, 2, 4, 8] 2).1 0 5 (by simp)
  · refine (test_statistic_zero_outside_written (fun q => q) [1, 2, 4, 8] 2).2 (24 / 115) ?_
    rw [double_gaussian_fit_data, mem_nonzero]
    exact ⟨by norm_num, 1, by norm_num, 1, by norm_num, hT⟩

/-- Line 110/120 of `lombscargle_filter`: the boolean-mask selection
`flux[real == 1]` restricting an array to the entries whose reality flag
equals 1. -/
def selectReal (flux : List ℚ) (real : List ℕ) : List ℚ :=
  ((flux.zip real).filter (fun p => p.2 == 1)).map (fun p => p.1)

/-- Elementwise numpy subtraction `flux - prediction` (line 126); the two
arrays always have equal length in the source. -/
def zipSub (a b : List ℚ) : List ℚ := List.zipWith (fun x y => x - y) a b

/-- Lines 118-128 of `lombscargle_filter`: the `try`-wrapped
`for _ in range(30)` loop.  The gatspy `LombScargleFast` model is external
library code, embedded as three oracle parameters: `fit` maps the real-sample
flux values (the real-sample times and the configured period range are fixed
for the whole loop and belong to the oracle's closure) to either a fitted
model or a raised exception; `score` is the model's significance score at its
best-fit period; `predict` is the model's prediction at all time points.  A
raised exception aborts the whole loop (the `except: pass` swallows it), so
the flux accumulated so far is returned. -/
def lombscargle_loop {Model : Type} (fit : List ℚ → Except Unit Model)
    (score : Model → ℚ) (predict : Model → List ℚ)
    (real : List ℕ) (min_score : ℚ) : ℕ → List ℚ → List ℚ
  | 0, flux => flux
  | fuel + 1, flux =>
      match fit (selectReal flux real) with
      | .error _ => flux
      | .ok m =>
          if score m < min_score then flux
          else lombscargle_loop fit score predict real min_score fuel
            (zipSub flux (predict m))

/-- Lines 108-128, `lombscargle_filter`: run the fit-and-subtract loop at most
30 times. -/
def lombscargle_filter {Model : Type} (fit : List ℚ → Except Unit Model)
    (score : Model → ℚ) (predict : Model → List ℚ)
    (real : List ℕ) (min_score : ℚ) (flux : List ℚ) : List ℚ :=
  lombscargle_loop fit score predict real min_score 30 flux

/-- One unconditional fit-and-subtract step (used to express how many
subtractions the loop performed): fit on the real-flagged samples of the
current flux and subtract the prediction; a failed fit leaves flux unchanged. -/
def lsStep {Model : Type} (fit : List ℚ → Except Unit Model)
    (predict : Model → List ℚ) (real : List ℕ) (flux : List ℚ) : List ℚ :=
  match fit (selectReal flux real) with
  | .error _ => flux
  | .ok m => zipSub flux (predict m)

section LombScargleFacts

/-- Fuel-generalised characterisation of the fit-and-subtract loop. -/
theorem lombscargle_loop_spec {Model : Type} (fit : List ℚ → Except Unit Model)
    (score : Model → ℚ) (predict : Model → List ℚ)
    (real : List ℕ) (min_score : ℚ) :
    ∀ (fuel : ℕ) (flux : List ℚ),
      ∃ k, k ≤ fuel ∧
        lombscargle_loop fit score predict real min_score fuel flux =
          (lsStep fit predict real)^[k] flux ∧
        (∀ j, j < k →
          ∃ m, fit (selectReal ((lsStep fit predict real)^[j] flux) real) = .ok m ∧
            min_score ≤ score m) ∧
        (k = fuel ∨
          fit (selectReal ((lsStep fit predict real)^[k] flux) real) = .error () ∨
          ∃ m, fit (selectReal ((lsStep fit predict real)^[k] flux) real) = .ok m ∧
            score m < min_score) := by
  intro fuel
  induction fuel with
  | zero =>
      intro flux
      exact ⟨0, le_refl 0, rfl, fun j hj => absurd hj (Nat.not_lt_zero j), Or.inl rfl⟩
  | succ fuel ih =>
      intro flux
      cases hfit : fit (selectReal flux real) with
      | error e =>
          refine ⟨0, by omega, ?_, fun j hj => absurd hj (Nat.not_lt_zero j), ?_⟩
          · simp only [lombscargle_loop, hfit, Function.iterate_zero_apply]
          · refine Or.inr (Or.inl ?_)
            simpa [Function.iterate_zero_apply] using hfit
      | ok m =>
          by_cases hs : score m < min_score
          · refine ⟨0, by omega, ?_, fun j hj => absurd hj (Nat.not_lt_zero j), ?_⟩
            · simp only [lombscargle_loop, hfit, if_pos hs, Function.iterate_zero_apply]
            · exact Or.inr (Or.inr ⟨m, by simpa [Function.iterate_zero_apply] using hfit, hs⟩)
          · obtain ⟨k, hk, heq, hcont, hstop⟩ := ih (zipSub flux (predict m))
            have hstep : lsStep fit predict real flux = zipSub flux (predict m) := by
              simp [lsStep, hfit]
            refine ⟨k + 1, by omega, ?_, ?_, ?_⟩
            · rw [Function.iterate_succ_apply, hstep]
              simpa only [lombscargle_loop, hfit, if_neg hs] using heq
            · intro j hj
              cases j with
              | zero =>
                  exact ⟨m, by simpa [Function.iterate_zero_apply] using hfit,
                    le_of_not_lt hs⟩
              | succ j =>
                  have := hcont j (by omega)
                  rwa [Function.iterate_succ_apply, hstep]
              /- rewrite the (j+1)-st iterate on flux as the j-th on the
                 subtracted flux -/
            · rcases hstop with h | h | h
              · exact Or.inl (by omega)
              · refine Or.inr (Or.inl ?_)
                rwa [Function.iterate_succ_apply, hstep]
              · refine Or.inr (Or.inr ?_)
                rwa [Function.iterate_succ_apply, hstep]

end LombScargleFacts

/-- Claim C2: the periodogram denoiser performs at most 30 fit-and-subtract
iterations; each iteration fits on exactly the real-flagged samples of the
current flux (`selectReal`); the loop continues only while the fit succeeded
with score at least `min_score` (each such iteration subtracting the model's
prediction from the full flux), and it stops either at the 30-iteration cap,
or on a caught fitting exception, or on a score below `min_score` — so the
returned flux carries exactly the subtractions of the completed iterations
and no exception ever propagates (the embedding is a total function). -/
theorem lombscargle_filter_spec {Model : Type} (fit : List ℚ → Except Unit Model)
    (score : Model → ℚ) (predict : Model → List ℚ)
    (real : List ℕ) (min_score : ℚ) (flux : List ℚ) :
    ∃ k, k ≤ 30 ∧
      lombscargle_filter fit score predict real min_score flux =
        (lsStep fit predict real)^[k] flux ∧
      (∀ j, j < k →
        ∃ m, fit (selectReal ((lsStep fit predict real)^[j] flux) real) = .ok m ∧
          min_score ≤ score m) ∧
      (k = 30 ∨
        fit (selectReal ((lsStep fit predict real)^[k] flux) real) = .error () ∨
        ∃ m, fit (selectReal ((lsStep fit predict real)^[k] flux) real) = .ok m ∧
          score m < min_score) :=
  lombscargle_loop_spec fit score predict real min_score 30 flux

/-- Gaussian rational: an exact complex number `re + im·i` with rational
parts, modelling the complex doubles handled by `numpy.fft`.  The primitive
roots of unity needed by the concrete evaluations below (`N = 4`) are exactly
representable. -/
structure GQ where
  re : ℚ
  im : ℚ
deriving DecidableEq

namespace GQ

/-- Complex addition. -/
def add (x y : GQ) : GQ := ⟨x.re + y.re, x.im + y.im⟩

/-- Complex multiplication. -/
def mul (x y : GQ) : GQ := ⟨x.re * y.re - x.im * y.im, x.re * y.im + x.im * y.re⟩

/-- Complex conjugate. -/
def conj (x : GQ) : GQ := ⟨x.re, -x.im⟩

/-- The complex zero. -/
def zero : GQ := ⟨0, 0⟩

/-- Embedding of a real (rational) value. -/
def ofQ (q : ℚ) : GQ := ⟨q, 0⟩

/-- Squared magnitude `|x|²`.  numpy ranks bins by `|x|`; ranking by `|x|²`
is the same ranking, and is exact over ℚ. -/
def magSq (x : GQ) : ℚ := x.re * x.re + x.im * x.im

/-- Natural power `x^n`. -/
def npow (x : GQ) : ℕ → GQ
  | 0 => ⟨1, 0⟩
  | n + 1 => mul (npow x n) x

/-- Sum of a list of complex values. -/
def sumL (l : List GQ) : GQ := l.foldr add zero

end GQ

/-- Python list slice `l[0:k]` for an arbitrary integer `k`: a negative stop
counts from the end and the result is clamped — no value of `k` raises. -/
def pyTake {α : Type} (k : ℤ) (l : List α) : List α :=
  l.take (if k < 0 then ((l.length : ℤ) + k).toNat else k.toNat)

/-- Line 91, `numpy.fft.rfft`: for real input of length `N` the half spectrum
has `N/2 + 1` entries `A_k = Σ_n flux[n] · w^(k·n)` for `k = 0, ..., N/2`,
where `w = e^(-2πi/N)` is the primitive N-th root of unity, passed here
explicitly as `w`. -/
def rfft (w : GQ) (flux : List ℚ) : List GQ :=
  (List.range (flux.length / 2 + 1)).map (fun k =>
    GQ.sumL ((List.range flux.length).map (fun n =>
      GQ.mul (GQ.ofQ (flux.getD n 0)) (GQ.npow w (k * n)))))

/-- Line 95, `np.argsort(-A_mag)`: the index list `0, ..., len-1` ordered by
descending magnitude.  (numpy's quicksort order between tied magnitudes is
unspecified; the concrete inputs used below have pairwise distinct
magnitudes, and the general statements do not depend on tie order.) -/
def argsortDesc (keys : List ℚ) : List ℕ :=
  List.insertionSort (fun i j => keys.getD j 0 ≤ keys.getD i 0)
    (List.range keys.length)

/-- Lines 98-100: `B = np.zeros(len(A)) * 1j` followed by `B[i] = A[i]` for
each selected index. -/
def keepBins (A : List GQ) (idx : List ℕ) : List GQ :=
  (List.range A.length).map (fun i => if i ∈ idx then A.getD i GQ.zero else GQ.zero)

/-- Hermitian extension of a half spectrum to full length `N` (the c2r
convention of `numpy.fft.irfft`): entry `k ≤ N/2` is taken as given, entry
`k > N/2` is the conjugate of entry `N - k`. -/
def hermExt (B : List GQ) (N k : ℕ) : GQ :=
  if k ≤ N / 2 then B.getD k GQ.zero else GQ.conj (B.getD (N - k) GQ.zero)

/-- Line 103, `np.fft.irfft(B, N)`:
`x_j = (1/N) · Σ_{k<N} hermExt(B)_k · winv^(j·k)` with `winv = e^(2πi/N)`
(the conjugate root); numpy returns the real part (for Hermitian-consistent
input, as arises here, the sum is already real). -/
def irfft (winv : GQ) (B : List GQ) (N : ℕ) : List ℚ :=
  (List.range N).map (fun j =>
    (GQ.sumL ((List.range N).map (fun k =>
      GQ.mul (hermExt B N k) (GQ.npow winv (j * k))))).re / N)

/-- Lines 87-105, `fourier_filter`: subtract from the flux the inverse
transform of the `freq_count` largest-magnitude bins of its real FFT.  The
only exception the body can raise is numpy's `ValueError` on an empty FFT
input; the body contains no validation of `freq_count` (the Python slice
accepts every integer). -/
def fourier_filter (w : GQ) (flux : List ℚ) (freq_count : ℤ) :
    Except PyError (List ℚ) :=
  if flux.length = 0 then .error .valueError
  else
    .ok (zipSub flux
      (irfft (GQ.conj w)
        (keepBins (rfft w flux)
          (pyTake freq_count (argsortDesc ((rfft w flux).map GQ.magSq))))
        flux.length))

section FourierFacts

theorem GQ.mul_zero_left (x : GQ) : GQ.mul GQ.zero x = GQ.zero := by
  simp [GQ.mul, GQ.zero]

theorem GQ.conj_zero : GQ.conj GQ.zero = GQ.zero := by
  simp [GQ.conj, GQ.zero]

theorem getD_map_const_zero (L i : ℕ) :
    ((List.range L).map (fun _ => GQ.zero)).getD i GQ.zero = GQ.zero := by
  rw [List.getD_eq_getElem?_getD, List.getElem?_map]
  cases (List.range L)[i]? <;> rfl

theorem hermExt_zeros (L N k : ℕ) :
    hermExt ((List.range L).map (fun _ => GQ.zero)) N k = GQ.zero := by
  unfold hermExt
  split_ifs <;> simp [getD_map_const_zero, GQ.conj_zero]

theorem sumL_const_zero (l : List GQ) (h : ∀ x ∈ l, x = GQ.zero) :
    GQ.sumL l = GQ.zero := by
  induction l with
  | nil => rfl
  | cons a t ih =>
      simp only [GQ.sumL, List.foldr_cons]
      have ht : List.foldr GQ.add GQ.zero t = GQ.zero :=
        ih (fun x hx => h x (List.mem_cons_of_mem a hx))
      rw [ht, h a (List.mem_cons_self a t)]
      simp [GQ.add, GQ.zero]

theorem irfft_zeros (winv : GQ) (L N : ℕ) :
    irfft winv ((List.range L).map (fun _ => GQ.zero)) N =
      (List.range N).map (fun _ => (0 : ℚ)) := by
  unfold irfft
  refine List.map_congr_left ?_
  intro j _
  rw [sumL_const_zero]
  · simp [GQ.zero]
  · intro x hx
    simp only [List.mem_map] at hx
    obtain ⟨k, _, rfl⟩ := hx
    rw [hermExt_zeros, GQ.mul_zero_left]

theorem zipSub_zero_right (l : List ℚ) :
    zipSub l ((List.range l.length).map (fun _ => (0 : ℚ))) = l := by
  induction l with
  | nil => rfl
  | cons a t ih =>
      rw [List.length_cons, List.range_succ_eq_map, List.map_cons, List.map_map]
      have hc : ((fun _ => (0 : ℚ)) ∘ Nat.succ) = (fun _ => (0 : ℚ)) := rfl
      rw [hc]
      simp only [zipSub, List.zipWith_cons_cons, sub_zero]
      simp only [zipSub] at ih
      rw [ih]

end FourierFacts

/-- Claim C8 counterexample: `freq_count = 0` is below the claimed lower
bound 1, yet `fourier_filter` accepts it without any error: the slice keeps
no bins, the reconstruction is the zero array, and the flux is returned
unchanged as an ordinary value. -/
theorem fourier_filter_accepts_zero_count :
    fourier_filter ⟨0, -1⟩ [1, 2, 3, 4] 0 = .ok [1, 2, 3, 4] := by
  norm_num [fourier_filter, rfft, argsortDesc, keepBins, hermExt, irfft, zipSub,
    pyTake, GQ.sumL, GQ.add, GQ.mul, GQ.conj, GQ.zero, GQ.ofQ, GQ.magSq, GQ.npow,
    List.range_succ, List.insertionSort, List.orderedInsert]

/-- Claim C8 (amended): `fourier_filter` performs no validation of
`freq_count` at all.  For every nonempty flux and *every* integer
`freq_count` — below 1, beyond N/2, even negative — it returns an ordinary
filtered array (Python slice semantics clamp the selection); in particular
`freq_count = 0` selects no bins and returns the flux unchanged.  No
invalid-parameter error is ever signaled; the only raisable error is numpy's
`ValueError` on an empty FFT input. -/
theorem fourier_filter_no_validation (w : GQ) (flux : List ℚ) (k : ℤ)
    (h : flux ≠ []) :
    (∃ result, fourier_filter w flux k = .ok result) ∧
      fourier_filter w flux 0 = .ok flux := by
  have hlen : ¬ flux.length = 0 := by
    simpa [List.length_eq_zero] using h
  constructor
  · exact ⟨_, by unfold fourier_filter; rw [if_neg hlen]⟩
  · unfold fourier_filter
    rw [if_neg hlen]
    have hp : pyTake (0 : ℤ) (argsortDesc ((rfft w flux).map GQ.magSq)) = [] := by
      simp [pyTake]
    rw [hp]
    have hk : keepBins (rfft w flux) [] =
        (List.range (rfft w flux).length).map (fun _ => GQ.zero) := by
      simp [keepBins]
    rw [hk, irfft_zeros, zipSub_zero_right]

/-- Witness for `fourier_filter_no_validation` at a concrete flux and the
out-of-range count 7. -/
theorem fourier_filter_no_validation_witness :
    (∃ result, fourier_filter ⟨0, -1⟩ [1, 2] 7 = .ok result) ∧
      fourier_filter ⟨0, -1⟩ [1, 2] 0 = .ok [1, 2] :=
  fourier_filter_no_validation ⟨0, -1⟩ [1, 2] 7 (by simp)

section FourierConcrete

/-- Full exact evaluation of `fourier_filter` on `[1, 2, 3, 4]` with
`freq_count = N/2 = 2` and `w = e^(-2πi/4) = -i`: the rfft is
`[10, -2+2i, -2]`, the two largest-magnitude bins (indices 0 and 1) are kept,
and the dropped Nyquist bin `-2` leaves the residual
`[-1/2, 1/2, -1/2, 1/2]`. -/
theorem fourier_filter_eval_half :
    fourier_filter ⟨0, -1⟩ [1, 2, 3, 4] 2 = .ok [-1/2, 1/2, -1/2, 1/2] := by
  norm_num [fourier_filter, rfft, argsortDesc, keepBins, hermExt, irfft, zipSub,
    pyTake, GQ.sumL, GQ.add, GQ.mul, GQ.conj, GQ.zero, GQ.ofQ, GQ.magSq, GQ.npow,
    List.range_succ, List.insertionSort, List.orderedInsert,
    show ((2 : ℤ).toNat) = 2 from rfl,
    show List.take 2 [0, 1, 2] = [0, 1] from rfl]

end FourierConcrete

/-- Claim C9 counterexample: for the even-length flux `[1, 2, 3, 4]`
(`N = 4`, `k = N/2 = 2`), `fourier_filter` does *not* return the zero array:
the rfft has `N/2 + 1 = 3` bins, so keeping the top `N/2` drops one bin whose
contribution `[-1/2, 1/2, -1/2, 1/2]` survives the subtraction. -/
theorem fourier_filter_half_not_zero :
    (([1, 2, 3, 4] : List ℚ).length / 2 = 2) ∧
      fourier_filter ⟨0, -1⟩ [1, 2, 3, 4] 2 ≠ .ok [0, 0, 0, 0] := by
  refine ⟨by norm_num, ?_⟩
  rw [fourier_filter_eval_half]
  intro hcontra
  have := Except.ok.inj hcontra
  simp at this

/-- Claim C9 (amended): the rfft of an even-length-`N` real flux has
`N/2 + 1` frequency bins, so `freq_count = N/2` keeps all *but one* bin; the
dropped lowest-ranked bin's reconstruction survives the subtraction and the
result is in general nonzero — for flux `[1, 2, 3, 4]` and `k = N/2 = 2` the
result is `[-1/2, 1/2, -1/2, 1/2]`.  (Full cancellation would need all
`N/2 + 1` bins.) -/
theorem fourier_filter_drops_one_bin (w : GQ) (flux : List ℚ)
    (hEven : flux.length % 2 = 0) (h2 : 2 ≤ flux.length) :
    (rfft w flux).length = flux.length / 2 + 1 ∧
      (pyTake ((flux.length / 2 : ℕ) : ℤ)
        (argsortDesc ((rfft w flux).map GQ.magSq))).length = flux.length / 2 ∧
      fourier_filter ⟨0, -1⟩ [1, 2, 3, 4] 2 = .ok [-1/2, 1/2, -1/2, 1/2] := by
  refine ⟨by simp [rfft], ?_, fourier_filter_eval_half⟩
  have hlen : (argsortDesc ((rfft w flux).map GQ.magSq)).length =
      flux.length / 2 + 1 := by
    simp [argsortDesc, rfft]
  unfold pyTake
  rw [if_neg (by omega), List.length_take, hlen]
  omega

/-- Witness for `fourier_filter_drops_one_bin` at flux `[1, 2, 3, 4]`. -/
theorem fourier_filter_drops_one_bin_witness :
    (rfft ⟨0, -1⟩ [1, 2, 3, 4]).length = 3 ∧
      (pyTake 2 (argsortDesc ((rfft ⟨0, -1⟩ [1, 2, 3, 4]).map GQ.magSq))).length = 2 := by
  have h := fourier_filter_drops_one_bin ⟨0, -1⟩ [1, 2, 3, 4] (by norm_num) (by norm_num)
  have h1 := h.1
  have h2 := h.2.1
  norm_num at h1 h2
  exact ⟨h1, h2⟩
